import Mathlib

/-!
# Verification of `mediaire_toolbox` (`queue/redis_wq.py`)

Shallow embedding of the `RedisWQ` work queue and of the redis primitives it
uses, followed by theorems settling the specification claims.

Items are opaque byte sequences, modelled as `List Nat` (one entry per byte).
The redis store is modelled explicitly: a map from key to list (for the list
commands `lpush`, `rpoplpush`, `lrem`, `llen`) and a map from key to a value
together with its optional time-to-live (for `setex`, `incr`, `expire`);
`del` removes a key from both, since redis `DEL` deletes keys of any type.
Redis keeps integer-encoded values distinct from plain strings
(`INCR` produces the integer encoding), which the value type `RVal` mirrors
as a sum.  A ghost trace `expireLog` records every `expire` command issued,
so that "the expiry-arming side effect fires exactly once" is expressible.
-/

/-! ## SHA-224 (the content hash used by `RedisWQ._itemkey`)

`_itemkey` is `hashlib.sha224(item).hexdigest()`.  The hash is embedded in
full (FIPS 180-4), operating on byte lists with `Nat` arithmetic modulo
`2 ^ 32`. -/

/-- A byte string: the value type of redis lists and of queue items. -/
abbrev Bytes := List Nat

/-- `2 ^ 32`, the word modulus of SHA-224. -/
def M32 : Nat := 2 ^ 32

/-- Right rotation of a 32-bit word. -/
def rotr (n x : Nat) : Nat := ((x >>> n) ||| (x <<< (32 - n))) % M32

/-- SHA-256/224 schedule function `σ0`. -/
def ssig0 (x : Nat) : Nat := (rotr 7 x) ^^^ (rotr 18 x) ^^^ (x >>> 3)

/-- SHA-256/224 schedule function `σ1`. -/
def ssig1 (x : Nat) : Nat := (rotr 17 x) ^^^ (rotr 19 x) ^^^ (x >>> 10)

/-- SHA-256/224 round function `Σ0`. -/
def bsig0 (x : Nat) : Nat := (rotr 2 x) ^^^ (rotr 13 x) ^^^ (rotr 22 x)

/-- SHA-256/224 round function `Σ1`. -/
def bsig1 (x : Nat) : Nat := (rotr 6 x) ^^^ (rotr 11 x) ^^^ (rotr 25 x)

/-- SHA choose function (the complement of `a` is its xor with the 32-bit
all-ones mask, 4294967295). -/
def shaCh (a b c : Nat) : Nat := (a &&& b) ^^^ ((a ^^^ 4294967295) &&& c)

/-- SHA majority function. -/
def shaMaj (a b c : Nat) : Nat := (a &&& b) ^^^ (a &&& c) ^^^ (b &&& c)

/-- The 64 SHA-256/224 round constants of FIPS 180-4 (written in decimal;
the first four are 0x428a2f98, 0x71374491, 0xb5c0fbcf, 0xe9b5dba5 and so
on, row-major). -/
def shaK : List Nat :=
  [1116352408, 1899447441, 3049323471, 3921009573, 961987163,
   1508970993, 2453635748, 2870763221, 3624381080, 310598401,
   607225278, 1426881987, 1925078388, 2162078206, 2614888103,
   3248222580, 3835390401, 4022224774, 264347078, 604807628,
   770255983, 1249150122, 1555081692, 1996064986, 2554220882,
   2821834349, 2952996808, 3210313671, 3336571891, 3584528711,
   113926993, 338241895, 666307205, 773529912, 1294757372,
   1396182291, 1695183700, 1986661051, 2177026350, 2456956037,
   2730485921, 2820302411, 3259730800, 3345764771, 3516065817,
   3600352804, 4094571909, 275423344, 430227734, 506948616,
   659060556, 883997877, 958139571, 1322822218, 1537002063,
   1747873779, 1955562222, 2024104815, 2227730452, 2361852424,
   2428436474, 2756734187, 3204031479, 3329325298]

/-- FIPS 180-4 message padding: a `0x80` byte, zero bytes up to 56 mod 64,
then the bit length as 8 big-endian bytes. -/
def shaPad (msg : Bytes) : Bytes :=
  let len := msg.length
  let zeros := (119 - len % 64) % 64
  msg ++ [0x80] ++ List.replicate zeros 0 ++
    (List.range 8).map (fun i => ((8 * len) >>> (8 * (7 - i))) % 256)

/-- Big-endian grouping of bytes into 32-bit words. -/
def bytesToWords : Bytes → List Nat
  | a :: b :: c :: d :: rest => (((a * 256 + b) * 256 + c) * 256 + d) :: bytesToWords rest
  | _ => []

/-- Split a word list into blocks of 16 words.  Padded messages always have
a multiple of 16 words, so the final catch-all is never hit there. -/
def chunk16 : List Nat → List (List Nat)
  | [] => []
  | w0 :: w1 :: w2 :: w3 :: w4 :: w5 :: w6 :: w7 ::
    w8 :: w9 :: w10 :: w11 :: w12 :: w13 :: w14 :: w15 :: rest =>
    [w0, w1, w2, w3, w4, w5, w6, w7, w8, w9, w10, w11, w12, w13, w14, w15] ::
      chunk16 rest
  | l => [l]

/-- Extend a 16-word block to the 64-word message schedule (`fuel = 48`). -/
def extendW : Nat → List Nat → List Nat
  | 0, w => w
  | f + 1, w =>
    let t := w.length
    let nw := (ssig1 (w.getD (t - 2) 0) + w.getD (t - 7) 0 +
               ssig0 (w.getD (t - 15) 0) + w.getD (t - 16) 0) % M32
    extendW f (w ++ [nw])

/-- The eight 32-bit words of a SHA-2 state. -/
structure Sha8 where
  a : Nat
  b : Nat
  c : Nat
  d : Nat
  e : Nat
  f : Nat
  g : Nat
  h : Nat

/-- One SHA-2 compression round; `kw` is the pair of round constant and
schedule word. -/
def shaRound (st : Sha8) (kw : Nat × Nat) : Sha8 :=
  let t1 := (st.h + bsig1 st.e + shaCh st.e st.f st.g + kw.1 + kw.2) % M32
  let t2 := (bsig0 st.a + shaMaj st.a st.b st.c) % M32
  ⟨(t1 + t2) % M32, st.a, st.b, st.c, (st.d + t1) % M32, st.e, st.f, st.g⟩

/-- Compress one 16-word block into the running hash state. -/
def shaCompress (st : Sha8) (block : List Nat) : Sha8 :=
  let ws := extendW 48 block
  let fin := (List.zip shaK ws).foldl shaRound st
  ⟨(st.a + fin.a) % M32, (st.b + fin.b) % M32, (st.c + fin.c) % M32,
   (st.d + fin.d) % M32, (st.e + fin.e) % M32, (st.f + fin.f) % M32,
   (st.g + fin.g) % M32, (st.h + fin.h) % M32⟩

/-- The SHA-224 initial hash value of FIPS 180-4 (decimal; these are
0xc1059ed8, 0x367cd507, …, 0xbefa4fa4). -/
def sha224IV : Sha8 :=
  ⟨3238371032, 914150663, 812702999, 4144912697,
   4290775857, 1750603025, 1694076839, 3204075428⟩

/-- The SHA-224 state after absorbing a whole message. -/
def sha224Words (msg : Bytes) : Sha8 :=
  (chunk16 (bytesToWords (shaPad msg))).foldl shaCompress sha224IV

/-- Lower-case hexadecimal digit of a nibble. -/
def hexDigit (n : Nat) : Char :=
  if n < 10 then Char.ofNat (48 + n) else Char.ofNat (87 + n)

/-- A 32-bit word as 8 hex characters, most significant nibble first. -/
def wordHex (x : Nat) : String :=
  String.mk ([7, 6, 5, 4, 3, 2, 1, 0].map (fun i => hexDigit ((x >>> (4 * i)) % 16)))

/-- `hashlib.sha224(msg).hexdigest()`: the first seven state words as a
56-character lower-case hex string. -/
def sha224hex (msg : Bytes) : String :=
  let st := sha224Words msg
  wordHex st.a ++ wordHex st.b ++ wordHex st.c ++ wordHex st.d ++
    wordHex st.e ++ wordHex st.f ++ wordHex st.g

/-! ## The redis store (external collaborator)

Only the commands the queue issues are modelled: `llen`, `lpush`,
`rpoplpush` / `brpoplpush`, `lrem key 0 value`, `setex`, `del`, `incr`,
`expire`.  Values are kept with their optional TTL; redis encodes integer
values (as produced by `INCR`) distinctly from plain strings, mirrored here
by the sum `RVal`. -/

/-- A redis string value: either a plain string (as written by `SETEX`) or
redis's integer encoding (as produced by `INCR`). -/
abbrev RVal := String ⊕ Nat

/-- The state of the redis store: the list keyspace, the string keyspace
(value plus optional TTL), and a ghost trace of every `EXPIRE` command
issued (used to count expiry-arming side effects). -/
structure Store where
  lists : String → List Bytes
  strs : String → Option (RVal × Option Nat)
  expireLog : List (String × Nat)

attribute [ext] Store

namespace Store

/-- Replace the list stored at `k`. -/
def setList (s : Store) (k : String) (l : List Bytes) : Store :=
  { s with lists := fun x => if x = k then l else s.lists x }

/-- `LLEN k`. -/
def llen (s : Store) (k : String) : Nat := (s.lists k).length

/-- `LPUSH k v`: push onto the head, returning the new length. -/
def lpush (s : Store) (k : String) (v : Bytes) : Nat × Store :=
  ((s.lists k).length + 1, s.setList k (v :: s.lists k))

/-- `RPOPLPUSH src dst`: pop the tail of `src` and push it onto the head of
`dst`; `none` when `src` is empty. -/
def rpoplpush (s : Store) (src dst : String) : Option Bytes × Store :=
  match (s.lists src).getLast? with
  | none => (none, s)
  | some v =>
    let s1 := s.setList src (s.lists src).dropLast
    (some v, s1.setList dst (v :: s1.lists dst))

/-- `BRPOPLPUSH src dst timeout`.  The queue is a single-instance model with
no concurrent producer, so blocking on an empty `src` ends at the timeout
with a nil reply — the same observable outcome as the non-blocking command.
(A `timeout` of `none` would block forever on an empty list; that call never
returns and has no result to model.) -/
def brpoplpush (s : Store) (src dst : String) (_tmo : Option Nat) :
    Option Bytes × Store :=
  s.rpoplpush src dst

/-- `LREM k 0 v`: remove all occurrences of `v`, returning how many were
removed. -/
def lremAll (s : Store) (k : String) (v : Bytes) : Nat × Store :=
  ((s.lists k).count v, s.setList k ((s.lists k).filter (fun x => x != v)))

/-- `SETEX k secs v`: set a plain-string value with a TTL. -/
def setex (s : Store) (k : String) (secs : Nat) (v : String) : Store :=
  { s with strs := fun x => if x = k then some (Sum.inl v, some secs) else s.strs x }

/-- `DEL k₁ … kₙ`: drop every listed key, whatever its type — redis `DEL`
deletes string and list keys alike (a deleted list key reads back as the
empty list, which is how redis represents a non-existent list). -/
def del (s : Store) (ks : List String) : Store :=
  { s with
    lists := fun x => if x ∈ ks then [] else s.lists x,
    strs := fun x => if x ∈ ks then none else s.strs x }

/-- `INCR k`: create the key at integer 1 (no TTL), or bump the integer by
one keeping the TTL; a plain-string value is parsed as redis does.  Returns
the new value. -/
def incr (s : Store) (k : String) : Nat × Store :=
  match s.strs k with
  | none =>
    (1, { s with strs := fun x => if x = k then some (Sum.inr 1, none) else s.strs x })
  | some (v, t) =>
    let n := (match v with | Sum.inl str => str.toNat?.getD 0 | Sum.inr m => m) + 1
    (n, { s with strs := fun x => if x = k then some (Sum.inr n, t) else s.strs x })

/-- `EXPIRE k secs`: set the TTL of an existing key (no-op on a missing
key).  Every invocation is recorded in the ghost `expireLog`. -/
def expire (s : Store) (k : String) (secs : Nat) : Store :=
  { s with
    strs := fun x => if x = k then (s.strs k).map (fun p => (p.1, some secs)) else s.strs x,
    expireLog := s.expireLog ++ [(k, secs)] }

end Store

/-- The all-empty store. -/
def emptyStore : Store := ⟨fun _ => [], fun _ => none, []⟩

/-- UTF-8 encoding of a string, as `msg.encode('utf-8')` produces. -/
def strBytes (msg : String) : Bytes := msg.toUTF8.toList.map (fun b => b.toNat)

/-! ## The work queue (`RedisWQ`) -/

/-- The fields `__init__` derives: the session identifier and the key names
obtained from `name` by concatenation. -/
structure RedisWQ where
  _session : String
  _main_q_key : String
  _processing_q_key : String
  _error_q_key : String
  _error_messages_q_key : String
  _lease_key_prefix : String

namespace RedisWQ

/-- `__init__(name, …)`: `session` stands for the one `uuid.uuid4()` draw
made at construction; the key names are derived from `name`. -/
def init (name session : String) : RedisWQ :=
  ⟨session, name, name ++ ":processing", name ++ ":errors",
   name ++ ":error_messages", name ++ ":leased_by_session:"⟩

/-- `sessionID()`. -/
def sessionID (w : RedisWQ) : String := w._session

/-- `_main_qsize()`. -/
def _main_qsize (w : RedisWQ) (s : Store) : Nat := s.llen w._main_q_key

/-- `_processing_qsize()`. -/
def _processing_qsize (w : RedisWQ) (s : Store) : Nat := s.llen w._processing_q_key

/-- `empty()`: both queue sizes are zero.  The pair records that the store
is returned untouched (the method only issues `LLEN` reads). -/
def empty (w : RedisWQ) (s : Store) : Bool × Store :=
  (w._main_qsize s == 0 && w._processing_qsize s == 0, s)

/-- `_itemkey(item)`: `hashlib.sha224(item).hexdigest()`. -/
def _itemkey (_w : RedisWQ) (item : Bytes) : String := sha224hex item

/-- `put(item)`: `lpush` onto the main queue. -/
def put (w : RedisWQ) (item : Bytes) (s : Store) : Store :=
  (s.lpush w._main_q_key item).2

/-- `lease(lease_secs, block, timeout)`: move an item from the main queue to
the processing queue, then record the lease under
`lease_key_prefix + itemkey` with expiry `lease_secs`.  Mirrors the Python
truthiness test `if item:` — an empty byte string is returned but records no
lease. -/
def lease (w : RedisWQ) (lease_secs : Nat) (block : Bool) (tmo : Option Nat)
    (s : Store) : Option Bytes × Store :=
  let r := if block then s.brpoplpush w._main_q_key w._processing_q_key tmo
           else s.rpoplpush w._main_q_key w._processing_q_key
  match r with
  | (none, s1) => (none, s1)
  | (some item, s1) =>
    if item != [] then
      let itemkey := w._itemkey item
      (some item,
       s1.setex ( RedisWQ._lease_key_prefix w ++ itemkey) lease_secs w._session)
    else (some item, s1)

/-- `error(value, msg)`: remove `value` from the processing queue; when at
least one occurrence was removed, push the item onto the error queue and the
(UTF-8 encoded) message onto the error-message queue, then `assert` the two
new lengths agree.  `Except.error` models the `AssertionError`, carrying the
store as mutated up to the raise point. -/
def error (w : RedisWQ) (value : Bytes) (msg? : Option String) (s : Store) :
    Except (String × Store) Store :=
  let msg := msg?.getD "unknown error"
  let (exit_code, s1) := s.lremAll w._processing_q_key value
  if exit_code = 0 then Except.ok s1
  else
    let (len_errors, s2) := s1.lpush w._error_q_key value
    let (len_msgs, s3) := s2.lpush w._error_messages_q_key (strBytes msg)
    if len_errors = len_msgs then Except.ok s3
    else Except.error ("AssertionError", s3)

/-- `complete(value)`: remove all occurrences from the processing queue,
then `self._db.delete(self._lease_key_prefix + itemkey, self._session)` —
redis-py `delete` is variadic, so this deletes TWO keys: the lease key and a
key named by the session identifier. -/
def complete (w : RedisWQ) (value : Bytes) (s : Store) : Store :=
  let (_, s1) := s.lremAll w._processing_q_key value
  let itemkey := w._itemkey value
  s1.del [ RedisWQ._lease_key_prefix w ++ itemkey, w._session]

end RedisWQ


/-! ## Rate limiter (absent from the source tree; modelled from the spec)

The repository's tests exercise `RedisWQ._limit_rate`, `_get_timestamp` and
`lease(..., limit=N)`, but those members are not in the source file under
verification; only the spec (§4.2) and the tests describe them. -/

/-- Modelled from the spec: the rate-limit time-bucket width (the expiry the
limiter arms on the first increment of each bucket); the spec fixes no
numeric value ("e.g. one-second buckets"). -/
def LIMIT_BUCKET_SECONDS : Nat := 1

namespace RedisWQ

/-- Modelled from the spec: the per-queue, per-time-bucket rate-limit
counter key ("a store key scoped to the queue (and, implicitly, to a time
bucket)").  The reset test shows each bucket timestamp owns its own key. -/
def _limit_key (w : RedisWQ) (ts : Nat) : String :=
  w._main_q_key ++ ":limit:" ++ toString ts

/-- Modelled from the spec: `RedisWQ._limit_rate(limit)`, absent from the
source file (only the tests call it).  §4.2: `limit=None` always permits and
touches no state; `limit=N` increments the current bucket's counter, arms
the key's expiry exactly on the first increment of the bucket, and permits
iff at most `N` leases (this one included) have been counted in the bucket.
`ts` is the value `_get_timestamp()` returned for this attempt (the tests
inject it). -/
def _limit_rate (w : RedisWQ) (limit : Option Nat) (ts : Nat) (s : Store) :
    Bool × Store :=
  match limit with
  | none => (true, s)
  | some n =>
    let key := w._limit_key ts
    let (cnt, s1) := s.incr key
    let s2 := if cnt = 1 then s1.expire key LIMIT_BUCKET_SECONDS else s1
    (decide (cnt ≤ n), s2)

/-- Modelled from the spec: `lease` with the rate-limiter admission loop of
§4.1 step 1 — `while not _limit_rate(limit): time.sleep(…)` — in front of
the source `lease` body.  `tss` lists the successive `_get_timestamp`
results, one per limiter attempt (the tests inject exactly such a
sequence); the trailing `Nat` counts the `time.sleep` backoff calls.  A
first component of `none` means every supplied timestamp was denied, i.e.
the call is still blocked inside the loop. -/
def leaseLimited (w : RedisWQ) (lease_secs : Nat) (block : Bool)
    (tmo : Option Nat) (limit : Option Nat) :
    List Nat → Store → Option (Option Bytes) × Store × Nat
  | [], s => (none, s, 0)
  | ts :: rest, s =>
    let (ok, s1) := w._limit_rate limit ts s
    if ok then
      let (it, s2) := w.lease lease_secs block tmo s1
      (some it, s2, 0)
    else
      let (r, s2, m) := w.leaseLimited lease_secs block tmo limit rest s1
      (r, s2, m + 1)

/-- Iterate `leaseLimited` `j` times, each call making a single limiter
attempt at timestamp `ts` (so a call succeeds only if it is admitted
immediately); collects the first components. -/
def leaseRun (w : RedisWQ) (limit : Option Nat) (ts : Nat) :
    Nat → Store → List (Option (Option Bytes)) × Store
  | 0, s => ([], s)
  | j + 1, s =>
    let (r, s1, _) := w.leaseLimited 5 true none limit [ts] s
    let (rs, s2) := w.leaseRun limit ts j s1
    (r :: rs, s2)

/-! ## Iterated operations (used by the claims about sequences of calls) -/

/-- Iterate `lease` `j` times, collecting the results in call order. -/
def leaseN (w : RedisWQ) (lease_secs : Nat) (block : Bool) (tmo : Option Nat) :
    Nat → Store → List (Option Bytes) × Store
  | 0, s => ([], s)
  | j + 1, s =>
    let (r, s1) := w.lease lease_secs block tmo s
    let (rs, s2) := w.leaseN lease_secs block tmo j s1
    (r :: rs, s2)

/-- `put` every item of `items`, in order. -/
def putAll (w : RedisWQ) (items : List Bytes) (s : Store) : Store :=
  items.foldl (fun st it => w.put it st) s

/-- A sequence of `error(value, msg)` calls; stops at the first raised
`AssertionError`. -/
def errorSeq (w : RedisWQ) : List (Bytes × Option String) → Store →
    Except (String × Store) Store
  | [], s => Except.ok s
  | (v, m) :: rest, s =>
    match w.error v m s with
    | Except.ok s1 => w.errorSeq rest s1
    | Except.error e => Except.error e

end RedisWQ

/-- One public operation of the queue (the rate limiter, which is not in the
source file, is deliberately not among them). -/
inductive WQOp where
  | put (item : Bytes)
  | lease (lease_secs : Nat) (block : Bool) (tmo : Option Nat)
  | error (value : Bytes) (msg : Option String)
  | complete (value : Bytes)
  | empty

namespace RedisWQ

/-- Run one operation.  The instance is returned alongside the store,
mirroring that no method ever assigns to a field of `self`; an
`AssertionError` escaping `error` leaves the store as mutated up to the
raise point. -/
def applyOp (w : RedisWQ) (op : WQOp) (s : Store) : RedisWQ × Store :=
  match op with
  | WQOp.put item => (w, w.put item s)
  | WQOp.lease ls b t => (w, (w.lease ls b t s).2)
  | WQOp.error v m =>
    (w, match w.error v m s with
        | Except.ok s1 => s1
        | Except.error (_, s1) => s1)
  | WQOp.complete v => (w, w.complete v s)
  | WQOp.empty => (w, (w.empty s).2)

/-- Run a sequence of operations. -/
def runOps (w : RedisWQ) (ops : List WQOp) (s : Store) : RedisWQ × Store :=
  match ops with
  | [] => (w, s)
  | op :: rest =>
    let (w1, s1) := w.applyOp op s
    w1.runOps rest s1

end RedisWQ

/-- Lower-case hexadecimal character test (for the digest shape claims). -/
def isHexChar (c : Char) : Bool :=
  (48 ≤ c.toNat && c.toNat ≤ 57) || (97 ≤ c.toNat && c.toNat ≤ 102)

/-- A store holding a single list at key `k` and nothing else. -/
def listStore (k : String) (l : List Bytes) : Store :=
  ⟨fun x => if x = k then l else [], fun _ => none, []⟩

/-- A store whose string keyspace contains an entry at a key equal to the
session identifier `"sess"`, plus one processing item (for `complete`). -/
def sBug : Store :=
  ⟨fun x => if x = "q:processing" then [[1]] else [],
   fun x => if x = "sess" then some (Sum.inl "x", none) else none, []⟩

/-- A store whose string keyspace contains an entry at a key equal to the
session identifier `"id0"` and nothing else. -/
def sTen : Store :=
  ⟨fun _ => [],
   fun x => if x = "id0" then some (Sum.inl "junk", none) else none, []⟩

/-! ## Helper lemmas: store primitives -/

theorem Store.lists_setList_self (s : Store) (k : String) (l : List Bytes) :
    (s.setList k l).lists k = l := by
  simp [Store.setList]

theorem Store.lists_setList_ne (s : Store) (k : String) (l : List Bytes)
    (x : String) (h : x ≠ k) : (s.setList k l).lists x = s.lists x := by
  simp [Store.setList, h]

theorem Store.strs_setList (s : Store) (k : String) (l : List Bytes) :
    (s.setList k l).strs = s.strs := rfl

theorem Store.expireLog_setList (s : Store) (k : String) (l : List Bytes) :
    (s.setList k l).expireLog = s.expireLog := rfl

theorem Store.lists_setex (s : Store) (k : String) (secs : Nat) (v : String) :
    (s.setex k secs v).lists = s.lists := rfl

theorem Store.strs_setex_self (s : Store) (k : String) (secs : Nat) (v : String) :
    (s.setex k secs v).strs k = some (Sum.inl v, some secs) := by
  simp [Store.setex]

theorem Store.strs_setex_ne (s : Store) (k : String) (secs : Nat) (v : String)
    (x : String) (h : x ≠ k) : (s.setex k secs v).strs x = s.strs x := by
  simp [Store.setex, h]

theorem Store.expireLog_setex (s : Store) (k : String) (secs : Nat) (v : String) :
    (s.setex k secs v).expireLog = s.expireLog := rfl

theorem Store.lists_del (s : Store) (ks : List String) (x : String) :
    (s.del ks).lists x = if x ∈ ks then [] else s.lists x := rfl

theorem Store.strs_del (s : Store) (ks : List String) (x : String) :
    (s.del ks).strs x = if x ∈ ks then none else s.strs x := rfl

theorem Store.expireLog_del (s : Store) (ks : List String) :
    (s.del ks).expireLog = s.expireLog := rfl

theorem Store.rpoplpush_of_empty (s : Store) (src dst : String)
    (h : s.lists src = []) : s.rpoplpush src dst = (none, s) := by
  simp [Store.rpoplpush, h]

theorem Store.rpoplpush_of_last (s : Store) (src dst : String) (v : Bytes)
    (h : (s.lists src).getLast? = some v) :
    s.rpoplpush src dst =
      (some v,
       (s.setList src (s.lists src).dropLast).setList dst
         (v :: (s.setList src (s.lists src).dropLast).lists dst)) := by
  simp [Store.rpoplpush, h]

theorem Store.incr_of_none (s : Store) (k : String) (h : s.strs k = none) :
    s.incr k =
      (1, { s with strs := fun x => if x = k then some (Sum.inr 1, none) else s.strs x }) := by
  simp [Store.incr, h]

theorem Store.incr_of_int (s : Store) (k : String) (c : Nat) (t : Option Nat)
    (h : s.strs k = some (Sum.inr c, t)) :
    s.incr k =
      (c + 1, { s with strs := fun x => if x = k then some (Sum.inr (c + 1), t) else s.strs x }) := by
  simp [Store.incr, h]

theorem Store.strs_expire_self (s : Store) (k : String) (secs : Nat) :
    (s.expire k secs).strs k = (s.strs k).map (fun p => (p.1, some secs)) := by
  simp [Store.expire]

theorem Store.strs_expire_ne (s : Store) (k : String) (secs : Nat) (x : String)
    (h : x ≠ k) : (s.expire k secs).strs x = s.strs x := by
  simp [Store.expire, h]

theorem Store.lists_expire (s : Store) (k : String) (secs : Nat) :
    (s.expire k secs).lists = s.lists := rfl

theorem Store.expireLog_expire (s : Store) (k : String) (secs : Nat) :
    (s.expire k secs).expireLog = s.expireLog ++ [(k, secs)] := rfl

/-! ## Helper lemmas: strings and key distinctness -/

theorem string_ne_of_length {x y : String} (h : x.length ≠ y.length) : x ≠ y :=
  fun he => h (congrArg String.length he)

theorem string_append_right_ne (a : String) {x y : String} (h : x ≠ y) :
    a ++ x ≠ a ++ y := by
  intro he
  apply h
  have hd := congrArg String.data he
  rw [String.data_append, String.data_append] at hd
  exact String.ext (List.append_cancel_left hd)

theorem string_append_lit_ne (a : String) (l1 l2 t u : String) (i : Nat)
    (h1 : i < l1.data.length) (h2 : i < l2.data.length)
    (hne : l1.data[i]? ≠ l2.data[i]?) :
    a ++ l1 ++ t ≠ a ++ l2 ++ u := by
  rw [String.append_assoc, String.append_assoc]
  apply string_append_right_ne
  intro he
  apply hne
  have hd := congrArg String.data he
  rw [String.data_append, String.data_append] at hd
  have e1 : (l1.data ++ t.data)[i]? = l1.data[i]? := List.getElem?_append_left h1
  have e2 : (l2.data ++ u.data)[i]? = l2.data[i]? := List.getElem?_append_left h2
  rw [← e1, ← e2, hd]

theorem main_ne_processing (name sess : String) :
    (RedisWQ.init name sess)._main_q_key ≠ (RedisWQ.init name sess)._processing_q_key := by
  apply string_ne_of_length
  show name.length ≠ (name ++ ":processing").length
  rw [String.length_append]
  have : (":processing" : String).length = 11 := rfl
  omega

theorem processing_ne_errors (name sess : String) :
    (RedisWQ.init name sess)._processing_q_key ≠ (RedisWQ.init name sess)._error_q_key :=
  string_append_right_ne name (by decide)

theorem processing_ne_error_messages (name sess : String) :
    (RedisWQ.init name sess)._processing_q_key ≠ (RedisWQ.init name sess)._error_messages_q_key :=
  string_append_right_ne name (by decide)

theorem errors_ne_error_messages (name sess : String) :
    (RedisWQ.init name sess)._error_q_key ≠ (RedisWQ.init name sess)._error_messages_q_key :=
  string_append_right_ne name (by decide)

theorem limit_key_ne_lease_key (name sess : String) (ts : Nat) (h : String) :
    RedisWQ._limit_key (RedisWQ.init name sess) ts ≠
      RedisWQ._lease_key_prefix (RedisWQ.init name sess) ++ h := by
  show name ++ ":limit:" ++ toString ts ≠ (name ++ ":leased_by_session:") ++ h
  have := string_append_lit_ne name ":limit:" ":leased_by_session:" (toString ts) h 2
    (by decide) (by decide) (by decide)
  simpa [String.append_assoc] using this

/-! ## Helper lemmas: digest shape -/

theorem wordHex_length (x : Nat) : (wordHex x).length = 8 := by
  simp [wordHex, String.length_mk]

theorem sha224hex_length (m : Bytes) : (sha224hex m).length = 56 := by
  unfold sha224hex
  simp [String.length_append, wordHex_length]

theorem hexDigit_isHex : ∀ n, n < 16 → isHexChar (hexDigit n) = true := by decide

theorem wordHex_isHex (x : Nat) : ∀ c ∈ (wordHex x).data, isHexChar c = true := by
  intro c hc
  have hc' : c ∈ [7, 6, 5, 4, 3, 2, 1, 0].map (fun i => hexDigit ((x >>> (4 * i)) % 16)) := hc
  obtain ⟨i, _, rfl⟩ := List.mem_map.mp hc'
  exact hexDigit_isHex _ (Nat.mod_lt _ (by decide))

theorem sha224hex_isHex (m : Bytes) : ∀ c ∈ (sha224hex m).data, isHexChar c = true := by
  unfold sha224hex
  intro c hc
  simp only [String.data_append, List.mem_append] at hc
  rcases hc with ((((((h | h) | h) | h) | h) | h) | h) <;> exact wordHex_isHex _ _ h

/-! ## Claim theorems -/

/-- Claim C8: `empty()` returns true iff both the pending (main) list and the
processing list have length zero, and the call mutates no store state. -/
theorem claim_C8 (w : RedisWQ) (s : Store) :
    ((w.empty s).1 = true ↔
      (s.lists w._main_q_key).length = 0 ∧ (s.lists w._processing_q_key).length = 0)
    ∧ (w.empty s).2 = s := by
  refine ⟨?_, rfl⟩
  simp [RedisWQ.empty, RedisWQ._main_qsize, RedisWQ._processing_qsize, Store.llen]

/-- Claim C3: calling `error(item, msg)` when the item has zero occurrences
in the processing list raises no exception and returns the store entirely
unchanged (error list, error-message list, pending list and all lease keys
included). -/
theorem claim_C3 (w : RedisWQ) (v : Bytes) (m : Option String) (s : Store)
    (h : (s.lists w._processing_q_key).count v = 0) :
    w.error v m s = Except.ok s := by
  have hnotin : v ∉ s.lists w._processing_q_key := List.count_eq_zero.mp h
  have hfilter : (s.lists w._processing_q_key).filter (fun x => x != v) =
      s.lists w._processing_q_key := by
    apply List.filter_eq_self.mpr
    intro a ha
    simp only [bne_iff_ne, ne_eq, decide_eq_true_eq]
    exact fun he => hnotin (he ▸ ha)
  have hset : s.setList w._processing_q_key (s.lists w._processing_q_key) = s := by
    have hfun : (fun x => if x = w._processing_q_key then s.lists w._processing_q_key
        else s.lists x) = s.lists := by
      funext x
      split
      · next heq => rw [heq]
      · rfl
    show { s with lists := _ } = s
    rw [hfun]
  simp [RedisWQ.error, Store.lremAll, h, hfilter, hset]

/-- Witness for C3 at a concrete input. -/
theorem claim_C3_witness :
    (emptyStore.lists (RedisWQ.init "q" "s")._processing_q_key).count [1] = 0 ∧
      (RedisWQ.init "q" "s").error [1] (some "boom") emptyStore = Except.ok emptyStore :=
  ⟨rfl, claim_C3 (RedisWQ.init "q" "s") [1] (some "boom") emptyStore rfl⟩

/-- Claim C7: when the pending (main) list is empty, `lease` — non-blocking,
or blocking with an elapsed timeout — returns `none` and leaves the store
exactly as it was: no lease key written, no list changed. -/
theorem claim_C7 (w : RedisWQ) (ls : Nat) (b : Bool) (tmo : Option Nat) (s : Store)
    (h : s.lists w._main_q_key = []) :
    w.lease ls b tmo s = (none, s) := by
  have hr : s.rpoplpush w._main_q_key w._processing_q_key = (none, s) :=
    Store.rpoplpush_of_empty _ _ _ h
  cases b <;> simp [RedisWQ.lease, Store.brpoplpush, hr]

/-- Witness for C7 at a concrete input (blocking variant). -/
theorem claim_C7_witness :
    emptyStore.lists (RedisWQ.init "q" "s")._main_q_key = [] ∧
      (RedisWQ.init "q" "s").lease 5 true none emptyStore = (none, emptyStore) :=
  ⟨rfl, claim_C7 (RedisWQ.init "q" "s") 5 true none emptyStore rfl⟩

/-! ## Helper lemmas: `lease` -/

theorem lease_fst_of_last (w : RedisWQ) (ls : Nat) (b : Bool) (tmo : Option Nat)
    (s : Store) (item : Bytes)
    (hlast : (s.lists w._main_q_key).getLast? = some item) :
    (w.lease ls b tmo s).1 = some item := by
  have hr := Store.rpoplpush_of_last s w._main_q_key w._processing_q_key item hlast
  cases b <;> cases hb : (item != []) <;>
    simp [RedisWQ.lease, Store.brpoplpush, hr, hb]

theorem lease_lists_main_of_last (w : RedisWQ) (ls : Nat) (b : Bool)
    (tmo : Option Nat) (s : Store) (item : Bytes)
    (hmp : w._main_q_key ≠ w._processing_q_key)
    (hlast : (s.lists w._main_q_key).getLast? = some item) :
    (w.lease ls b tmo s).2.lists w._main_q_key = (s.lists w._main_q_key).dropLast := by
  have hr := Store.rpoplpush_of_last s w._main_q_key w._processing_q_key item hlast
  cases b <;> cases hb : (item != []) <;>
    simp [RedisWQ.lease, Store.brpoplpush, hr, hb, Store.lists_setex,
      Store.lists_setList_ne _ _ _ _ hmp, Store.lists_setList_self]

/-- Claim C4 (amended to non-empty items): when `lease` obtains a non-empty
item, it writes exactly one lease record — at the key
`lease_key_prefix ++ itemkey item` — whose value is this instance's session
identifier and whose expiry is `lease_secs`; every other string key is
unchanged; and the content hash is a deterministic fixed-length (56) hex
digest of the item bytes (`_itemkey` is a pure function of them). -/
theorem claim_C4 (w : RedisWQ) (ls : Nat) (b : Bool) (tmo : Option Nat)
    (s : Store) (item : Bytes)
    (hlast : (s.lists w._main_q_key).getLast? = some item) (hne : item ≠ []) :
    (w.lease ls b tmo s).1 = some item
    ∧ (w.lease ls b tmo s).2.strs ( RedisWQ._lease_key_prefix w ++ w._itemkey item) =
        some (Sum.inl w._session, some ls)
    ∧ (∀ k, k ≠ RedisWQ._lease_key_prefix w ++ w._itemkey item →
        (w.lease ls b tmo s).2.strs k = s.strs k)
    ∧ (w._itemkey item).length = 56
    ∧ (∀ c ∈ (w._itemkey item).data, isHexChar c = true) := by
  have hr := Store.rpoplpush_of_last s w._main_q_key w._processing_q_key item hlast
  have hbne : (item != []) = true := by simp [bne_iff_ne, hne]
  refine ⟨?_, ?_, ?_, sha224hex_length item, sha224hex_isHex item⟩
  · exact lease_fst_of_last w ls b tmo s item hlast
  · cases b <;>
      simp [RedisWQ.lease, Store.brpoplpush, hr, hbne, Store.strs_setex_self]
  · intro k hk
    cases b <;>
      simp [RedisWQ.lease, Store.brpoplpush, hr, hbne,
        Store.strs_setex_ne _ _ _ _ _ hk, Store.strs_setList]

/-- Counterexample to C4 as stated: with the empty byte string as the only
pending item, `lease` obtains an item (`some []`) yet writes no lease record
at all — every string key of the resulting store is still unset — because
the Python truthiness test `if item:` is false for empty bytes. -/
theorem claim_C4_counterexample :
    ((RedisWQ.init "q" "sess").lease 5 false none (listStore "q" [[]])).1 = some []
    ∧ ∀ k, ((RedisWQ.init "q" "sess").lease 5 false none (listStore "q" [[]])).2.strs k = none := by
  exact ⟨rfl, fun k => rfl⟩

/-- Witness for C4 at a concrete input. -/
theorem claim_C4_witness :
    ((listStore "q" [[1]]).lists (RedisWQ.init "q" "sess")._main_q_key).getLast? = some [1]
    ∧ ((RedisWQ.init "q" "sess").lease 7 false none (listStore "q" [[1]])).1 = some [1]
    ∧ ((RedisWQ.init "q" "sess").lease 7 false none (listStore "q" [[1]])).2.strs
        ( RedisWQ._lease_key_prefix (RedisWQ.init "q" "sess") ++
          RedisWQ._itemkey (RedisWQ.init "q" "sess") [1]) =
        some (Sum.inl "sess", some 7) := by
  have h := claim_C4 (RedisWQ.init "q" "sess") 7 false none (listStore "q" [[1]]) [1]
    rfl (by decide)
  exact ⟨rfl, h.1, h.2.1⟩

/-! ## Helper lemmas: `put` and FIFO order -/

theorem put_lists_main (w : RedisWQ) (item : Bytes) (s : Store) :
    (w.put item s).lists w._main_q_key = item :: s.lists w._main_q_key := by
  simp [RedisWQ.put, Store.lpush, Store.lists_setList_self]

theorem putAll_lists_main (w : RedisWQ) (items : List Bytes) (s : Store) :
    (w.putAll items s).lists w._main_q_key = items.reverse ++ s.lists w._main_q_key := by
  induction items generalizing s with
  | nil => simp [RedisWQ.putAll]
  | cons i rest ih =>
    show (w.putAll rest (w.put i s)).lists _ = _
    rw [ih, put_lists_main]
    simp

theorem leaseN_fifo (w : RedisWQ) (ls : Nat) (tmo : Option Nat)
    (hmp : w._main_q_key ≠ w._processing_q_key) :
    ∀ (l : List Bytes) (s : Store), s.lists w._main_q_key = l.reverse →
      (w.leaseN ls false tmo l.length s).1 = l.map some := by
  intro l
  induction l with
  | nil => intro s _; rfl
  | cons i rest ih =>
    intro s hs
    have hlast : (s.lists w._main_q_key).getLast? = some i := by
      rw [hs, List.reverse_cons]
      exact List.getLast?_concat _
    have hf := lease_fst_of_last w ls false tmo s i hlast
    have hmain1 : (w.lease ls false tmo s).2.lists w._main_q_key = rest.reverse := by
      rw [lease_lists_main_of_last w ls false tmo s i hmp hlast, hs,
        List.reverse_cons, List.dropLast_concat]
    rcases hE : w.lease ls false tmo s with ⟨r, s1⟩
    have hr : r = some i := by rw [hE] at hf; exact hf
    have hs1 : s1.lists w._main_q_key = rest.reverse := by
      rw [hE] at hmain1; exact hmain1
    have hrec := ih s1 hs1
    rcases hE2 : w.leaseN ls false tmo rest.length s1 with ⟨rs, s2⟩
    have hrs : rs = rest.map some := by rw [hE2] at hrec; exact hrec
    show (w.leaseN ls false tmo (rest.length + 1) s).1 = _
    simp only [RedisWQ.leaseN, hE, hE2]
    rw [hr, hrs]
    rfl

/-- Claim C6: `put` then non-blocking `lease` on a previously empty queue
returns exactly the item bytes that were put; and for any sequence of puts
with no interleaved leases (duplicates permitted), successive leases return
the items in put order — first put, first leased — once per put. -/
theorem claim_C6 (name sess : String) (ls : Nat) (tmo : Option Nat)
    (items : List Bytes) (s0 : Store)
    (h0 : s0.lists (RedisWQ.init name sess)._main_q_key = []) :
    (∀ item, ((RedisWQ.init name sess).lease ls false tmo
        ((RedisWQ.init name sess).put item s0)).1 = some item)
    ∧ ((RedisWQ.init name sess).leaseN ls false tmo items.length
        ((RedisWQ.init name sess).putAll items s0)).1 = items.map some := by
  constructor
  · intro item
    apply lease_fst_of_last
    rw [put_lists_main, h0]
    rfl
  · apply leaseN_fifo _ _ _ (main_ne_processing name sess)
    rw [putAll_lists_main, h0, List.append_nil]

/-- Witness for C6 at a concrete input (with a duplicate item). -/
theorem claim_C6_witness :
    emptyStore.lists (RedisWQ.init "q" "s")._main_q_key = [] ∧
      ((RedisWQ.init "q" "s").leaseN 5 false none 3
        ((RedisWQ.init "q" "s").putAll [[1], [2], [1]] emptyStore)).1 =
        [some [1], some [2], some [1]] :=
  ⟨rfl, (claim_C6 "q" "s" 5 none [[1], [2], [1]] emptyStore rfl).2⟩

/-! ## Helper lemmas: `error` -/


theorem error_ok (w : RedisWQ) (v : Bytes) (m : Option String) (s : Store)
    (hpe : w._processing_q_key ≠ w._error_q_key)
    (hpm : w._processing_q_key ≠ w._error_messages_q_key)
    (hem : w._error_q_key ≠ w._error_messages_q_key)
    (hE : (s.lists w._error_q_key).length = (s.lists w._error_messages_q_key).length) :
    ∃ s1, w.error v m s = Except.ok s1
      ∧ (s1.lists w._error_q_key).length = (s1.lists w._error_messages_q_key).length
      ∧ s1.lists w._processing_q_key =
          (s.lists w._processing_q_key).filter (fun x => x != v)
      ∧ ((s.lists w._processing_q_key).count v ≠ 0 →
          s1.lists w._error_q_key = v :: s.lists w._error_q_key ∧
          s1.lists w._error_messages_q_key =
            strBytes (m.getD "unknown error") :: s.lists w._error_messages_q_key) := by
  have hep : w._error_q_key ≠ w._processing_q_key := hpe.symm
  have hmp : w._error_messages_q_key ≠ w._processing_q_key := hpm.symm
  have hme : w._error_messages_q_key ≠ w._error_q_key := hem.symm
  by_cases hc : (s.lists w._processing_q_key).count v = 0
  · refine ⟨s.setList w._processing_q_key
      ((s.lists w._processing_q_key).filter (fun x => x != v)), ?_, ?_, ?_, ?_⟩
    · simp [RedisWQ.error, Store.lremAll, hc]
    · rw [Store.lists_setList_ne _ _ _ _ hep, Store.lists_setList_ne _ _ _ _ hmp]
      exact hE
    · exact Store.lists_setList_self _ _ _
    · intro hcc
      exact (hcc hc).elim
  · refine ⟨((s.setList w._processing_q_key
        ((s.lists w._processing_q_key).filter (fun x => x != v))).setList
          w._error_q_key
          (v :: (s.setList w._processing_q_key
              ((s.lists w._processing_q_key).filter (fun x => x != v))).lists
            w._error_q_key)).setList
        w._error_messages_q_key
        (strBytes (m.getD "unknown error") ::
          ((s.setList w._processing_q_key
              ((s.lists w._processing_q_key).filter (fun x => x != v))).setList
            w._error_q_key
            (v :: (s.setList w._processing_q_key
                ((s.lists w._processing_q_key).filter (fun x => x != v))).lists
              w._error_q_key)).lists w._error_messages_q_key),
      ?_, ?_, ?_, ?_⟩
    · have hlen2 :
          ((s.setList w._processing_q_key
              ((s.lists w._processing_q_key).filter (fun x => x != v))).lists
             w._error_q_key).length + 1 =
          (((s.setList w._processing_q_key
                ((s.lists w._processing_q_key).filter (fun x => x != v))).setList
              w._error_q_key
              (v :: (s.setList w._processing_q_key
                  ((s.lists w._processing_q_key).filter (fun x => x != v))).lists
                w._error_q_key)).lists
             w._error_messages_q_key).length + 1 := by
        rw [Store.lists_setList_ne _ _ _ _ hep,
          Store.lists_setList_ne _ _ _ _ hme,
          Store.lists_setList_ne _ _ _ _ hmp, hE]
      simp only [RedisWQ.error, Store.lremAll, Store.lpush]
      rw [if_neg hc, if_pos hlen2]
    · rw [Store.lists_setList_ne _ _ _ _ hem, Store.lists_setList_self,
        Store.lists_setList_self, Store.lists_setList_ne _ _ _ _ hme,
        Store.lists_setList_ne _ _ _ _ hep, Store.lists_setList_ne _ _ _ _ hmp,
        List.length_cons, List.length_cons, hE]
    · rw [Store.lists_setList_ne _ _ _ _ hpm, Store.lists_setList_ne _ _ _ _ hpe]
      exact Store.lists_setList_self _ _ _
    · intro _
      constructor
      · rw [Store.lists_setList_ne _ _ _ _ hem, Store.lists_setList_self,
          Store.lists_setList_ne _ _ _ _ hep]
      · rw [Store.lists_setList_self, Store.lists_setList_ne _ _ _ _ hme,
          Store.lists_setList_ne _ _ _ _ hmp]

theorem errorSeq_ok (w : RedisWQ)
    (hpe : w._processing_q_key ≠ w._error_q_key)
    (hpm : w._processing_q_key ≠ w._error_messages_q_key)
    (hem : w._error_q_key ≠ w._error_messages_q_key) :
    ∀ (calls : List (Bytes × Option String)) (s : Store),
      (s.lists w._error_q_key).length = (s.lists w._error_messages_q_key).length →
      ∃ s3, w.errorSeq calls s = Except.ok s3
        ∧ (s3.lists w._error_q_key).length = (s3.lists w._error_messages_q_key).length := by
  intro calls
  induction calls with
  | nil => exact fun s hE => ⟨s, rfl, hE⟩
  | cons c rest ih =>
    intro s hE
    obtain ⟨s1, hok, hlen, _, _⟩ := error_ok w c.1 c.2 s hpe hpm hem hE
    obtain ⟨s3, hok3, hlen3⟩ := ih s1 hlen
    refine ⟨s3, ?_, hlen3⟩
    show (match w.error c.1 c.2 s with
          | Except.ok s1 => w.errorSeq rest s1
          | Except.error e => Except.error e) = Except.ok s3
    rw [hok]
    exact hok3

/-- Claim C2: from a state where the error list and error-message list have
equal length, a successful `error(item, msg)` call that removed the item
from the processing list pushes the item onto the head of the error list and
the message (`"unknown error"` when omitted) onto the head of the
error-message list, restoring equal lengths; consequently equal length holds
after any sequence of `error()` calls. -/
theorem claim_C2 (name sess : String) (v : Bytes) (m : Option String) (s : Store)
    (calls : List (Bytes × Option String)) :
    ((s.lists (RedisWQ.init name sess)._error_q_key).length =
        (s.lists (RedisWQ.init name sess)._error_messages_q_key).length →
      (s.lists (RedisWQ.init name sess)._processing_q_key).count v ≠ 0 →
      ∃ s1, (RedisWQ.init name sess).error v m s = Except.ok s1
        ∧ (s1.lists (RedisWQ.init name sess)._error_q_key).length =
            (s1.lists (RedisWQ.init name sess)._error_messages_q_key).length
        ∧ s1.lists (RedisWQ.init name sess)._error_q_key =
            v :: s.lists (RedisWQ.init name sess)._error_q_key
        ∧ s1.lists (RedisWQ.init name sess)._error_messages_q_key =
            strBytes (m.getD "unknown error") ::
              s.lists (RedisWQ.init name sess)._error_messages_q_key
        ∧ s1.lists (RedisWQ.init name sess)._processing_q_key =
            (s.lists (RedisWQ.init name sess)._processing_q_key).filter
              (fun x => x != v))
    ∧ (∀ s2 : Store,
        (s2.lists (RedisWQ.init name sess)._error_q_key).length =
          (s2.lists (RedisWQ.init name sess)._error_messages_q_key).length →
        ∃ s3, (RedisWQ.init name sess).errorSeq calls s2 = Except.ok s3
          ∧ (s3.lists (RedisWQ.init name sess)._error_q_key).length =
              (s3.lists (RedisWQ.init name sess)._error_messages_q_key).length) := by
  constructor
  · intro hE hv
    obtain ⟨s1, hok, hlen, hproc, hpush⟩ := error_ok (RedisWQ.init name sess) v m s
      (processing_ne_errors name sess) (processing_ne_error_messages name sess)
      (errors_ne_error_messages name sess) hE
    obtain ⟨he, hm⟩ := hpush hv
    exact ⟨s1, hok, hlen, he, hm, hproc⟩
  · exact errorSeq_ok (RedisWQ.init name sess)
      (processing_ne_errors name sess) (processing_ne_error_messages name sess)
      (errors_ne_error_messages name sess) calls

/-- Witness for C2 at a concrete input. -/
theorem claim_C2_witness :
    ((listStore "q:processing" [[7]]).lists (RedisWQ.init "q" "s")._error_q_key).length =
      ((listStore "q:processing" [[7]]).lists
        (RedisWQ.init "q" "s")._error_messages_q_key).length
    ∧ ((listStore "q:processing" [[7]]).lists
        (RedisWQ.init "q" "s")._processing_q_key).count [7] ≠ 0
    ∧ ∃ s1, (RedisWQ.init "q" "s").error [7] none (listStore "q:processing" [[7]]) =
          Except.ok s1
        ∧ (s1.lists (RedisWQ.init "q" "s")._error_q_key).length =
            (s1.lists (RedisWQ.init "q" "s")._error_messages_q_key).length := by
  have h := (claim_C2 "q" "s" [7] none (listStore "q:processing" [[7]])
    [([7], some "x")]).1 rfl (by decide)
  obtain ⟨s1, h1, h2, _⟩ := h
  exact ⟨rfl, by decide, s1, h1, h2⟩

/-! ## Helper lemmas: `complete` -/

theorem complete_lists (w : RedisWQ) (v : Bytes) (s : Store) (x : String) :
    (w.complete v s).lists x =
      if x ∈ [ RedisWQ._lease_key_prefix w ++ w._itemkey v, w._session] then []
      else if x = w._processing_q_key then
        (s.lists w._processing_q_key).filter (fun a => a != v)
      else s.lists x := rfl

theorem complete_strs (w : RedisWQ) (v : Bytes) (s : Store) (x : String) :
    (w.complete v s).strs x =
      if x ∈ [ RedisWQ._lease_key_prefix w ++ w._itemkey v, w._session] then none
      else s.strs x := rfl

theorem complete_expireLog (w : RedisWQ) (v : Bytes) (s : Store) :
    (w.complete v s).expireLog = s.expireLog := rfl

set_option maxRecDepth 100000 in
/-- Claim C5 is contradicted by the code: `complete` passes TWO keys to the
variadic redis `delete` — the lease key and `self._session` — so a store key
equal to the session identifier is deleted as well.  At the concrete input:
the session is `"sess"`, the store `sBug` holds an (unrelated) entry at key
`"sess"`, and `complete` on item `[1]` erases it, although `"sess"` is not
the item's lease key.  (The removal from processing and the lease-key
deletion themselves behave as claimed.) -/
theorem claim_C5_session_key_deleted :
    ((RedisWQ.init "q" "sess").complete [1] sBug).strs "sess" = none
    ∧ sBug.strs "sess" = some (Sum.inl "x", none)
    ∧ "sess" ≠ RedisWQ._lease_key_prefix (RedisWQ.init "q" "sess") ++
        RedisWQ._itemkey (RedisWQ.init "q" "sess") [1]
    ∧ ((RedisWQ.init "q" "sess").complete [1] sBug).lists "q:processing" = []
    ∧ ((RedisWQ.init "q" "sess").complete [1] sBug).strs
        ( RedisWQ._lease_key_prefix (RedisWQ.init "q" "sess") ++
          RedisWQ._itemkey (RedisWQ.init "q" "sess") [1]) = none := by
  exact ⟨by decide, rfl, by decide, by decide, by decide⟩

/-- Counterexample to C10 as stated: in the store `sTen` the item `[2]` is
absent from the processing list and its lease key does not exist, yet
`complete([2])` does not leave the store unchanged — it deletes the
(unrelated) entry stored at the key `"id0"`, which equals the session
identifier, because `complete` passes `self._session` as a second key to the
variadic redis `delete`. -/
theorem claim_C10_counterexample :
    (sTen.lists (RedisWQ.init "p" "id0")._processing_q_key).count [2] = 0
    ∧ sTen.strs ( RedisWQ._lease_key_prefix (RedisWQ.init "p" "id0") ++
        RedisWQ._itemkey (RedisWQ.init "p" "id0") [2]) = none
    ∧ sTen.strs "id0" = some (Sum.inl "junk", none)
    ∧ ((RedisWQ.init "p" "id0").complete [2] sTen).strs "id0" = none := by
  exact ⟨rfl, by decide, rfl, by decide⟩

/-- Claim C10 (amended): `complete` raises no exception and is idempotent —
running it twice yields the same store as running it once, unconditionally —
and it is a no-op when the item is absent from the processing list, its
lease key does not exist in either keyspace, AND no key of any type equal to
the session identifier exists (the session conditions are forced by
`complete` passing `self._session` as a second key to the variadic redis
`delete`, which removes keys of any type). -/
theorem claim_C10_amended (w : RedisWQ) (v : Bytes) (s : Store) :
    ((s.lists w._processing_q_key).count v = 0 →
      s.strs ( RedisWQ._lease_key_prefix w ++ w._itemkey v) = none →
      s.lists ( RedisWQ._lease_key_prefix w ++ w._itemkey v) = [] →
      s.strs w._session = none →
      s.lists w._session = [] →
      w.complete v s = s)
    ∧ ∀ (v2 : Bytes) (s2 : Store),
        w.complete v2 (w.complete v2 s2) = w.complete v2 s2 := by
  constructor
  · intro hc hk hkl hs hsl
    have hnotin : v ∉ s.lists w._processing_q_key := List.count_eq_zero.mp hc
    have hfilter : (s.lists w._processing_q_key).filter (fun a => a != v) =
        s.lists w._processing_q_key := by
      apply List.filter_eq_self.mpr
      intro a ha
      simp only [bne_iff_ne, ne_eq, decide_eq_true_eq]
      exact fun he => hnotin (he ▸ ha)
    apply Store.ext
    · funext x
      rw [complete_lists]
      by_cases hx : x ∈ [ RedisWQ._lease_key_prefix w ++ w._itemkey v, w._session]
      · rw [if_pos hx]
        rcases List.mem_cons.mp hx with h1 | h2
        · rw [h1, hkl]
        · rw [List.mem_singleton.mp h2, hsl]
      · rw [if_neg hx]
        by_cases hp : x = w._processing_q_key
        · subst hp
          rw [if_pos rfl, hfilter]
        · rw [if_neg hp]
    · funext x
      rw [complete_strs]
      by_cases hx : x ∈ [ RedisWQ._lease_key_prefix w ++ w._itemkey v, w._session]
      · rw [if_pos hx]
        rcases List.mem_cons.mp hx with h1 | h2
        · rw [h1, hk]
        · rw [List.mem_singleton.mp h2, hs]
      · rw [if_neg hx]
    · rfl
  · intro v2 s2
    have hidem : ∀ l : List Bytes,
        (l.filter (fun a => a != v2)).filter (fun a => a != v2) =
          l.filter (fun a => a != v2) :=
      fun l => List.filter_eq_self.mpr (fun a ha => (List.mem_filter.mp ha).2)
    apply Store.ext
    · funext x
      rw [complete_lists, complete_lists, complete_lists]
      by_cases hx : x ∈ [ RedisWQ._lease_key_prefix w ++ w._itemkey v2, w._session]
      · simp [hx]
      · by_cases hp : x = w._processing_q_key
        · subst hp
          simp [hx, hidem]
        · simp [hx, hp]
    · funext x
      rw [complete_strs, complete_strs]
      by_cases hx : x ∈ [ RedisWQ._lease_key_prefix w ++ w._itemkey v2, w._session]
      · simp [hx]
      · simp [hx]
    · rfl

/-- Witness for the hypothesis-bearing part of the amended C10. -/
theorem claim_C10_witness :
    (emptyStore.lists (RedisWQ.init "q" "w1")._processing_q_key).count [1] = 0
    ∧ (RedisWQ.init "q" "w1").complete [1] emptyStore = emptyStore :=
  ⟨rfl, (claim_C10_amended (RedisWQ.init "q" "w1") [1] emptyStore).1 rfl rfl rfl rfl rfl⟩

/-! ## Helper lemmas: operation sequences and the session -/

theorem applyOp_fst (w : RedisWQ) (op : WQOp) (s : Store) : (w.applyOp op s).1 = w := by
  cases op <;> rfl

theorem error_outcome_strs (w : RedisWQ) (v : Bytes) (m : Option String) (s : Store) :
    (match w.error v m s with
     | Except.ok s1 => s1
     | Except.error (_, s1) => s1).strs = s.strs := by
  by_cases hc : (s.lists w._processing_q_key).count v = 0
  · simp [RedisWQ.error, Store.lremAll, hc, Store.strs_setList]
  · simp only [RedisWQ.error, Store.lremAll, Store.lpush]
    rw [if_neg hc]
    by_cases hlen :
        ((s.setList w._processing_q_key
            ((s.lists w._processing_q_key).filter (fun x => x != v))).lists
           w._error_q_key).length + 1 =
        (((s.setList w._processing_q_key
              ((s.lists w._processing_q_key).filter (fun x => x != v))).setList
            w._error_q_key
            (v :: (s.setList w._processing_q_key
                ((s.lists w._processing_q_key).filter (fun x => x != v))).lists
              w._error_q_key)).lists
           w._error_messages_q_key).length + 1
    · rw [if_pos hlen]; rfl
    · rw [if_neg hlen]; rfl

theorem lease_strs_cases (w : RedisWQ) (ls : Nat) (b : Bool) (tmo : Option Nat)
    (s : Store) (x : String) :
    ((w.lease ls b tmo s).2.strs x = s.strs x) ∨
    ((w.lease ls b tmo s).2.strs x = some (Sum.inl w._session, some ls)) := by
  cases hl : (s.lists w._main_q_key).getLast? with
  | none =>
    left
    cases b <;> simp [RedisWQ.lease, Store.brpoplpush, Store.rpoplpush, hl]
  | some item =>
    have hr := Store.rpoplpush_of_last s w._main_q_key w._processing_q_key item hl
    cases hb : (item != [])
    · left
      cases b <;> simp [RedisWQ.lease, Store.brpoplpush, hr, hb, Store.strs_setList]
    · by_cases hx : x = RedisWQ._lease_key_prefix w ++ RedisWQ._itemkey w item
      · right
        subst hx
        cases b <;>
          simp [RedisWQ.lease, Store.brpoplpush, hr, hb, Store.strs_setex_self]
      · left
        cases b <;>
          simp [RedisWQ.lease, Store.brpoplpush, hr, hb,
            Store.strs_setex_ne _ _ _ _ _ hx, Store.strs_setList]

theorem applyOp_strs_cases (w : RedisWQ) (op : WQOp) (s : Store) (x : String) :
    ((w.applyOp op s).2.strs x = s.strs x) ∨ ((w.applyOp op s).2.strs x = none) ∨
    (∃ t, (w.applyOp op s).2.strs x = some (Sum.inl w._session, t)) := by
  cases op with
  | put item => left; rfl
  | lease ls b tmo =>
    rcases lease_strs_cases w ls b tmo s x with h | h
    · left; exact h
    · right; right; exact ⟨some ls, h⟩
  | error v m =>
    left
    exact congrFun (error_outcome_strs w v m s) x
  | complete v =>
    rw [show (w.applyOp (WQOp.complete v) s).2 = w.complete v s from rfl, complete_strs]
    by_cases hx : x ∈ [ RedisWQ._lease_key_prefix w ++ w._itemkey v, w._session]
    · right; left; simp [hx]
    · left; simp [hx]
  | empty => left; rfl

theorem runOps_fst (w : RedisWQ) (ops : List WQOp) (s : Store) :
    (w.runOps ops s).1 = w := by
  induction ops generalizing s with
  | nil => rfl
  | cons op rest ih =>
    rcases hE : w.applyOp op s with ⟨w1, s1⟩
    have hw : w1 = w := by
      have := applyOp_fst w op s
      rw [hE] at this
      exact this
    simp only [RedisWQ.runOps, hE]
    subst hw
    exact ih s1

theorem runOps_strs_cases (w : RedisWQ) (ops : List WQOp) (s : Store) (x : String) :
    ((w.runOps ops s).2.strs x = s.strs x) ∨ ((w.runOps ops s).2.strs x = none) ∨
    (∃ t, (w.runOps ops s).2.strs x = some (Sum.inl w._session, t)) := by
  induction ops generalizing s with
  | nil => left; rfl
  | cons op rest ih =>
    rcases hE : w.applyOp op s with ⟨w1, s1⟩
    have hw : w1 = w := by
      have := applyOp_fst w op s
      rw [hE] at this
      exact this
    have hstep := applyOp_strs_cases w op s x
    rw [hE] at hstep
    simp only [RedisWQ.runOps, hE]
    subst hw
    rcases ih s1 with h | h | h
    · rw [h]
      exact hstep
    · right; left; exact h
    · right; right; exact h

/-- Claim C9: the session identifier is fixed at construction (`init`) and
never changes across any sequence of `put` / `lease` / `error` / `complete`
/ `empty` operations — the instance after any run is the instance before —
and every lease record the instance writes carries the session identifier
as its owner token: after any run, each string key either kept its prior
value, was deleted, or holds the instance's session identifier. -/
theorem claim_C9 (w : RedisWQ) (name sess : String) (ops : List WQOp) (s : Store) :
    RedisWQ.sessionID (RedisWQ.init name sess) = sess
    ∧ (w.runOps ops s).1 = w
    ∧ ∀ k, ((w.runOps ops s).2.strs k = s.strs k) ∨
        ((w.runOps ops s).2.strs k = none) ∨
        (∃ t, (w.runOps ops s).2.strs k = some (Sum.inl (RedisWQ.sessionID w), t)) :=
  ⟨rfl, runOps_fst w ops s, fun k => runOps_strs_cases w ops s k⟩

/-! ## Helper lemmas: the rate limiter -/

theorem limit_rate_fresh (w : RedisWQ) (n ts : Nat) (s : Store)
    (h : s.strs (w._limit_key ts) = none) :
    (w._limit_rate (some n) ts s).1 = decide (1 ≤ n)
    ∧ (w._limit_rate (some n) ts s).2.strs (w._limit_key ts) =
        some (Sum.inr 1, some LIMIT_BUCKET_SECONDS)
    ∧ (∀ x, x ≠ w._limit_key ts → (w._limit_rate (some n) ts s).2.strs x = s.strs x)
    ∧ (w._limit_rate (some n) ts s).2.lists = s.lists
    ∧ (w._limit_rate (some n) ts s).2.expireLog =
        s.expireLog ++ [(w._limit_key ts, LIMIT_BUCKET_SECONDS)] := by
  have hi := Store.incr_of_none s (w._limit_key ts) h
  refine ⟨?_, ?_, ?_, ?_, ?_⟩
  · simp [RedisWQ._limit_rate, hi]
  · simp [RedisWQ._limit_rate, hi, Store.strs_expire_self]
  · intro x hx
    simp [RedisWQ._limit_rate, hi, Store.strs_expire_ne _ _ _ _ hx, hx]
  · simp [RedisWQ._limit_rate, hi, Store.lists_expire]
  · simp [RedisWQ._limit_rate, hi, Store.expireLog_expire]

theorem limit_rate_counted (w : RedisWQ) (n ts c : Nat) (t : Option Nat) (s : Store)
    (hc : 1 ≤ c) (h : s.strs (w._limit_key ts) = some (Sum.inr c, t)) :
    (w._limit_rate (some n) ts s).1 = decide (c + 1 ≤ n)
    ∧ (w._limit_rate (some n) ts s).2.strs (w._limit_key ts) = some (Sum.inr (c + 1), t)
    ∧ (∀ x, x ≠ w._limit_key ts → (w._limit_rate (some n) ts s).2.strs x = s.strs x)
    ∧ (w._limit_rate (some n) ts s).2.lists = s.lists
    ∧ (w._limit_rate (some n) ts s).2.expireLog = s.expireLog := by
  have hi := Store.incr_of_int s (w._limit_key ts) c t h
  have hne : ¬(c + 1 = 1) := by omega
  refine ⟨?_, ?_, ?_, ?_, ?_⟩
  · simp [RedisWQ._limit_rate, hi, hne]
  · simp [RedisWQ._limit_rate, hi, hne]
  · intro x hx
    simp [RedisWQ._limit_rate, hi, hne, hx]
  · simp [RedisWQ._limit_rate, hi, hne]
  · simp [RedisWQ._limit_rate, hi, hne]

theorem lease_preserves (w : RedisWQ) (ls : Nat) (b : Bool) (tmo : Option Nat)
    (s : Store) (x : String)
    (hx : ∀ hsh, x ≠ RedisWQ._lease_key_prefix w ++ hsh) :
    (w.lease ls b tmo s).2.strs x = s.strs x := by
  cases hl : (s.lists w._main_q_key).getLast? with
  | none =>
    cases b <;> simp [RedisWQ.lease, Store.brpoplpush, Store.rpoplpush, hl]
  | some item =>
    have hr := Store.rpoplpush_of_last s w._main_q_key w._processing_q_key item hl
    cases hb : (item != [])
    · cases b <;> simp [RedisWQ.lease, Store.brpoplpush, hr, hb, Store.strs_setList]
    · cases b <;>
        simp [RedisWQ.lease, Store.brpoplpush, hr, hb,
          Store.strs_setex_ne _ _ _ _ _ (hx (RedisWQ._itemkey w item)),
          Store.strs_setList]

theorem lease_expireLog (w : RedisWQ) (ls : Nat) (b : Bool) (tmo : Option Nat)
    (s : Store) : (w.lease ls b tmo s).2.expireLog = s.expireLog := by
  cases hl : (s.lists w._main_q_key).getLast? with
  | none =>
    cases b <;> simp [RedisWQ.lease, Store.brpoplpush, Store.rpoplpush, hl]
  | some item =>
    have hr := Store.rpoplpush_of_last s w._main_q_key w._processing_q_key item hl
    cases hb : (item != []) <;> cases b <;>
      simp [RedisWQ.lease, Store.brpoplpush, hr, hb, Store.expireLog_setex,
        Store.expireLog_setList]

theorem getLast?_of_length_pos {α : Type} (l : List α) (h : 0 < l.length) :
    ∃ a, l.getLast? = some a := by
  cases hl : l.getLast? with
  | some a => exact ⟨a, rfl⟩
  | none =>
    rw [List.getLast?_eq_none_iff] at hl
    rw [hl] at h
    exact absurd h (by simp)

theorem leaseRun_counted (w : RedisWQ) (n ts : Nat)
    (hkl : ∀ hsh, w._limit_key ts ≠ RedisWQ._lease_key_prefix w ++ hsh)
    (hmp : w._main_q_key ≠ w._processing_q_key) :
    ∀ (j c : Nat) (s : Store), 1 ≤ c → c + j ≤ n →
      s.strs (w._limit_key ts) = some (Sum.inr c, some LIMIT_BUCKET_SECONDS) →
      j ≤ (s.lists w._main_q_key).length →
      (∀ r ∈ (w.leaseRun (some n) ts j s).1, ∃ item, r = some (some item))
      ∧ (w.leaseRun (some n) ts j s).2.strs (w._limit_key ts) =
          some (Sum.inr (c + j), some LIMIT_BUCKET_SECONDS)
      ∧ (∀ x, x ≠ w._limit_key ts →
          (∀ hsh, x ≠ RedisWQ._lease_key_prefix w ++ hsh) →
          (w.leaseRun (some n) ts j s).2.strs x = s.strs x)
      ∧ (w.leaseRun (some n) ts j s).2.expireLog = s.expireLog
      ∧ ((w.leaseRun (some n) ts j s).2.lists w._main_q_key).length =
          (s.lists w._main_q_key).length - j := by
  intro j
  induction j with
  | zero =>
    intro c s hc hcn hstrs hlen
    exact ⟨fun r hr => absurd hr (List.not_mem_nil r), hstrs,
      fun x _ _ => rfl, rfl, by simp [RedisWQ.leaseRun]⟩
  | succ j ih =>
    intro c s hc hcn hstrs hlen
    have hpos : 0 < (s.lists w._main_q_key).length := by omega
    obtain ⟨item, hlast⟩ := getLast?_of_length_pos _ hpos
    obtain ⟨hA1, hA2, hA3, hA4, hA5⟩ :=
      limit_rate_counted w n ts c (some LIMIT_BUCKET_SECONDS) s hc hstrs
    rcases hE1 : w._limit_rate (some n) ts s with ⟨ok, s1⟩
    rw [hE1] at hA1 hA2 hA3 hA4 hA5
    have hok : ok = decide (c + 1 ≤ n) := hA1
    have hokT : ok = true := by
      rw [hok]
      simp only [decide_eq_true_eq]
      omega
    have hs1key : s1.strs (w._limit_key ts) =
        some (Sum.inr (c + 1), some LIMIT_BUCKET_SECONDS) := hA2
    have hs1x : ∀ x, x ≠ w._limit_key ts → s1.strs x = s.strs x := hA3
    have hs1lists : s1.lists = s.lists := hA4
    have hs1log : s1.expireLog = s.expireLog := hA5
    rcases hE2 : w.lease 5 true none s1 with ⟨r2, s2⟩
    have hlast1 : (s1.lists w._main_q_key).getLast? = some item := by
      rw [hs1lists]; exact hlast
    have hr2 : r2 = some item := by
      have hh := lease_fst_of_last w 5 true none s1 item hlast1
      rw [hE2] at hh
      exact hh
    have hs2key : s2.strs (w._limit_key ts) =
        some (Sum.inr (c + 1), some LIMIT_BUCKET_SECONDS) := by
      have hh := lease_preserves w 5 true none s1 (w._limit_key ts) hkl
      rw [hE2] at hh
      exact hh.trans hs1key
    have hs2x : ∀ x, x ≠ w._limit_key ts →
        (∀ hsh, x ≠ RedisWQ._lease_key_prefix w ++ hsh) → s2.strs x = s.strs x := by
      intro x hx1 hx2
      have hh := lease_preserves w 5 true none s1 x hx2
      rw [hE2] at hh
      exact hh.trans (hs1x x hx1)
    have hs2log : s2.expireLog = s.expireLog := by
      have hh := lease_expireLog w 5 true none s1
      rw [hE2] at hh
      exact hh.trans hs1log
    have hs2main : (s2.lists w._main_q_key).length =
        (s.lists w._main_q_key).length - 1 := by
      have hh := lease_lists_main_of_last w 5 true none s1 item hmp hlast1
      rw [hE2] at hh
      rw [hh, hs1lists, List.length_dropLast]
    have hrec := ih (c + 1) s2 (by omega) (by omega) hs2key (by omega)
    rcases hE3 : w.leaseRun (some n) ts j s2 with ⟨rs, s3⟩
    rw [hE3] at hrec
    obtain ⟨hR1, hR2, hR3, hR4, hR5⟩ := hrec
    have hLL : w.leaseLimited 5 true none (some n) [ts] s = (some r2, s2, 0) := by
      simp only [RedisWQ.leaseLimited, hE1, hokT, if_true, hE2]
    have hgoal : w.leaseRun (some n) ts (j + 1) s = (some r2 :: rs, s3) := by
      simp only [RedisWQ.leaseRun, hLL, hE3]
    rw [hgoal]
    refine ⟨?_, ?_, ?_, ?_, ?_⟩
    · intro r hr
      rcases List.mem_cons.mp hr with h | h
      · exact ⟨item, by rw [h, hr2]⟩
      · exact hR1 r h
    · have : c + 1 + j = c + (j + 1) := by omega
      rw [← this]
      exact hR2
    · intro x hx1 hx2
      exact (hR3 x hx1 hx2).trans (hs2x x hx1 hx2)
    · exact hR4.trans hs2log
    · rw [hR5, hs2main]
      omega

theorem leaseRun_fresh (w : RedisWQ) (n ts : Nat)
    (hkl : ∀ hsh, w._limit_key ts ≠ RedisWQ._lease_key_prefix w ++ hsh)
    (hmp : w._main_q_key ≠ w._processing_q_key)
    (j : Nat) (s0 : Store)
    (h0 : s0.strs (w._limit_key ts) = none)
    (hjn : j + 1 ≤ n)
    (hlen : j + 1 ≤ (s0.lists w._main_q_key).length) :
    (∀ r ∈ (w.leaseRun (some n) ts (j + 1) s0).1, ∃ item, r = some (some item))
    ∧ (w.leaseRun (some n) ts (j + 1) s0).2.strs (w._limit_key ts) =
        some (Sum.inr (1 + j), some LIMIT_BUCKET_SECONDS)
    ∧ (∀ x, x ≠ w._limit_key ts → (∀ hsh, x ≠ RedisWQ._lease_key_prefix w ++ hsh) →
        (w.leaseRun (some n) ts (j + 1) s0).2.strs x = s0.strs x)
    ∧ (w.leaseRun (some n) ts (j + 1) s0).2.expireLog =
        s0.expireLog ++ [(w._limit_key ts, LIMIT_BUCKET_SECONDS)]
    ∧ ((w.leaseRun (some n) ts (j + 1) s0).2.lists w._main_q_key).length =
        (s0.lists w._main_q_key).length - (j + 1) := by
  have hpos : 0 < (s0.lists w._main_q_key).length := by omega
  obtain ⟨item, hlast⟩ := getLast?_of_length_pos _ hpos
  obtain ⟨hA1, hA2, hA3, hA4, hA5⟩ := limit_rate_fresh w n ts s0 h0
  rcases hE1 : w._limit_rate (some n) ts s0 with ⟨ok, s1⟩
  rw [hE1] at hA1 hA2 hA3 hA4 hA5
  have hok : ok = decide (1 ≤ n) := hA1
  have hokT : ok = true := by
    rw [hok]
    simp only [decide_eq_true_eq]
    omega
  have hs1key : s1.strs (w._limit_key ts) =
      some (Sum.inr 1, some LIMIT_BUCKET_SECONDS) := hA2
  have hs1x : ∀ x, x ≠ w._limit_key ts → s1.strs x = s0.strs x := hA3
  have hs1lists : s1.lists = s0.lists := hA4
  have hs1log : s1.expireLog =
      s0.expireLog ++ [(w._limit_key ts, LIMIT_BUCKET_SECONDS)] := hA5
  rcases hE2 : w.lease 5 true none s1 with ⟨r2, s2⟩
  have hlast1 : (s1.lists w._main_q_key).getLast? = some item := by
    rw [hs1lists]; exact hlast
  have hr2 : r2 = some item := by
    have hh := lease_fst_of_last w 5 true none s1 item hlast1
    rw [hE2] at hh
    exact hh
  have hs2key : s2.strs (w._limit_key ts) =
      some (Sum.inr 1, some LIMIT_BUCKET_SECONDS) := by
    have hh := lease_preserves w 5 true none s1 (w._limit_key ts) hkl
    rw [hE2] at hh
    exact hh.trans hs1key
  have hs2x : ∀ x, x ≠ w._limit_key ts →
      (∀ hsh, x ≠ RedisWQ._lease_key_prefix w ++ hsh) → s2.strs x = s0.strs x := by
    intro x hx1 hx2
    have hh := lease_preserves w 5 true none s1 x hx2
    rw [hE2] at hh
    exact hh.trans (hs1x x hx1)
  have hs2log : s2.expireLog =
      s0.expireLog ++ [(w._limit_key ts, LIMIT_BUCKET_SECONDS)] := by
    have hh := lease_expireLog w 5 true none s1
    rw [hE2] at hh
    exact hh.trans hs1log
  have hs2main : (s2.lists w._main_q_key).length =
      (s0.lists w._main_q_key).length - 1 := by
    have hh := lease_lists_main_of_last w 5 true none s1 item hmp hlast1
    rw [hE2] at hh
    rw [hh, hs1lists, List.length_dropLast]
  have hrec := leaseRun_counted w n ts hkl hmp j 1 s2 (by omega) (by omega)
    hs2key (by omega)
  rcases hE3 : w.leaseRun (some n) ts j s2 with ⟨rs, s3⟩
  rw [hE3] at hrec
  obtain ⟨hR1, hR2, hR3, hR4, hR5⟩ := hrec
  have hLL : w.leaseLimited 5 true none (some n) [ts] s0 = (some r2, s2, 0) := by
    simp only [RedisWQ.leaseLimited, hE1, hokT, if_true, hE2]
  have hgoal : w.leaseRun (some n) ts (j + 1) s0 = (some r2 :: rs, s3) := by
    simp only [RedisWQ.leaseRun, hLL, hE3]
  rw [hgoal]
  refine ⟨?_, hR2, ?_, ?_, ?_⟩
  · intro r hr
    rcases List.mem_cons.mp hr with h | h
    · exact ⟨item, by rw [h, hr2]⟩
    · exact hR1 r h
  · intro x hx1 hx2
    exact (hR3 x hx1 hx2).trans (hs2x x hx1 hx2)
  · exact hR4.trans hs2log
  · rw [hR5, hs2main]
    omega

theorem leaseLimited_denied (w : RedisWQ) (n ts : Nat) :
    ∀ (mm c : Nat) (t : Option Nat) (s : Store), 1 ≤ c → n ≤ c →
      s.strs (w._limit_key ts) = some (Sum.inr c, t) →
      (w.leaseLimited 5 true none (some n) (List.replicate mm ts) s).1 = none
      ∧ (w.leaseLimited 5 true none (some n) (List.replicate mm ts) s).2.2 = mm
      ∧ (w.leaseLimited 5 true none (some n) (List.replicate mm ts) s).2.1.expireLog =
          s.expireLog
      ∧ (w.leaseLimited 5 true none (some n) (List.replicate mm ts) s).2.1.lists = s.lists
      ∧ (w.leaseLimited 5 true none (some n) (List.replicate mm ts) s).2.1.strs
          (w._limit_key ts) = some (Sum.inr (c + mm), t)
      ∧ (∀ x, x ≠ w._limit_key ts →
          (w.leaseLimited 5 true none (some n) (List.replicate mm ts) s).2.1.strs x =
            s.strs x) := by
  intro mm
  induction mm with
  | zero =>
    intro c t s hc hcn hstrs
    exact ⟨rfl, rfl, rfl, rfl, hstrs, fun x _ => rfl⟩
  | succ mm ih =>
    intro c t s hc hcn hstrs
    obtain ⟨hA1, hA2, hA3, hA4, hA5⟩ := limit_rate_counted w n ts c t s hc hstrs
    rcases hE1 : w._limit_rate (some n) ts s with ⟨ok, s1⟩
    rw [hE1] at hA1 hA2 hA3 hA4 hA5
    have hok : ok = decide (c + 1 ≤ n) := hA1
    have hokF : ok = false := by
      rw [hok]
      simp only [decide_eq_false_iff_not]
      omega
    have hs1key : s1.strs (w._limit_key ts) = some (Sum.inr (c + 1), t) := hA2
    have hs1x : ∀ x, x ≠ w._limit_key ts → s1.strs x = s.strs x := hA3
    have hs1lists : s1.lists = s.lists := hA4
    have hs1log : s1.expireLog = s.expireLog := hA5
    have hrec := ih (c + 1) t s1 (by omega) (by omega) hs1key
    rcases hE3 : w.leaseLimited 5 true none (some n) (List.replicate mm ts) s1 with
      ⟨r, s2, k⟩
    rw [hE3] at hrec
    obtain ⟨hR1, hR2, hR3, hR4, hR5, hR6⟩ := hrec
    have hgoal : w.leaseLimited 5 true none (some n) (List.replicate (mm + 1) ts) s =
        (r, s2, k + 1) := by
      rw [List.replicate_succ]
      simp only [RedisWQ.leaseLimited, hE1, hokF, Bool.false_eq_true, if_false, hE3]
    rw [hgoal]
    refine ⟨hR1, ?_, hR3.trans hs1log, hR4.trans hs1lists, ?_, ?_⟩
    · show k + 1 = mm + 1
      have hk : k = mm := hR2
      rw [hk]
    · have : c + 1 + mm = c + (mm + 1) := by omega
      rw [← this]
      exact hR5
    · intro x hx
      exact (hR6 x hx).trans (hs1x x hx)

theorem leaseLimited_rollover (w : RedisWQ) (n ts ts2 : Nat)
    (hkey : w._limit_key ts2 ≠ w._limit_key ts) :
    ∀ (mm c : Nat) (t : Option Nat) (s : Store), 1 ≤ c → n ≤ c → 1 ≤ n →
      s.strs (w._limit_key ts) = some (Sum.inr c, t) →
      s.strs (w._limit_key ts2) = none →
      0 < (s.lists w._main_q_key).length →
      ∃ item,
        (w.leaseLimited 5 true none (some n) (List.replicate mm ts ++ [ts2]) s).1 =
          some (some item)
        ∧ (w.leaseLimited 5 true none (some n) (List.replicate mm ts ++ [ts2]) s).2.2 =
            mm := by
  intro mm
  induction mm with
  | zero =>
    intro c t s hc hcn hn hts hts2 hpos
    obtain ⟨hF1, hF2, hF3, hF4, hF5⟩ := limit_rate_fresh w n ts2 s hts2
    rcases hE1 : w._limit_rate (some n) ts2 s with ⟨ok, s1⟩
    rw [hE1] at hF1 hF2 hF3 hF4 hF5
    have hok : ok = decide (1 ≤ n) := hF1
    have hokT : ok = true := by
      rw [hok]
      simp only [decide_eq_true_eq]
      omega
    have hs1lists : s1.lists = s.lists := hF4
    obtain ⟨item, hlast⟩ := getLast?_of_length_pos _ hpos
    have hlast1 : (s1.lists w._main_q_key).getLast? = some item := by
      rw [hs1lists]; exact hlast
    rcases hE2 : w.lease 5 true none s1 with ⟨r2, s2⟩
    have hr2 : r2 = some item := by
      have hh := lease_fst_of_last w 5 true none s1 item hlast1
      rw [hE2] at hh
      exact hh
    have hgoal : w.leaseLimited 5 true none (some n)
        (List.replicate 0 ts ++ [ts2]) s = (some r2, s2, 0) := by
      show w.leaseLimited 5 true none (some n) [ts2] s = (some r2, s2, 0)
      simp only [RedisWQ.leaseLimited, hE1, hokT, if_true, hE2]
    exact ⟨item, by rw [hgoal, hr2], by rw [hgoal]⟩
  | succ mm ih =>
    intro c t s hc hcn hn hts hts2 hpos
    obtain ⟨hA1, hA2, hA3, hA4, hA5⟩ := limit_rate_counted w n ts c t s hc hts
    rcases hE1 : w._limit_rate (some n) ts s with ⟨ok, s1⟩
    rw [hE1] at hA1 hA2 hA3 hA4 hA5
    have hok : ok = decide (c + 1 ≤ n) := hA1
    have hokF : ok = false := by
      rw [hok]
      simp only [decide_eq_false_iff_not]
      omega
    have hs1key : s1.strs (w._limit_key ts) = some (Sum.inr (c + 1), t) := hA2
    have hs1x : ∀ x, x ≠ w._limit_key ts → s1.strs x = s.strs x := hA3
    have hs1lists : s1.lists = s.lists := hA4
    have hs1ts2 : s1.strs (w._limit_key ts2) = none := by
      rw [hs1x (w._limit_key ts2) hkey]
      exact hts2
    have hs1pos : 0 < (s1.lists w._main_q_key).length := by
      rw [hs1lists]; exact hpos
    obtain ⟨item, hrec1, hrec2⟩ := ih (c + 1) t s1 (by omega) (by omega) hn
      hs1key hs1ts2 hs1pos
    rcases hE3 : w.leaseLimited 5 true none (some n)
      (List.replicate mm ts ++ [ts2]) s1 with ⟨r, s2, k⟩
    rw [hE3] at hrec1 hrec2
    have hgoal : w.leaseLimited 5 true none (some n)
        (List.replicate (mm + 1) ts ++ [ts2]) s = (r, s2, k + 1) := by
      rw [List.replicate_succ, List.cons_append]
      simp only [RedisWQ.leaseLimited, hE1, hokF, Bool.false_eq_true, if_false, hE3]
    have hk : k = mm := hrec2
    refine ⟨item, by rw [hgoal]; exact hrec1, by rw [hgoal]; show k + 1 = mm + 1; rw [hk]⟩

/-- Claim C1 (rate limiter; the limiter code is absent from the source tree
and modelled from the spec and tests): with `limit = N = n + 1` and a fresh
bucket `ts`, the N calls to `lease(limit=N)` within the bucket all succeed
immediately (each obtains an item with no sleep); across those N calls the
expiry-arming side effect fires exactly once (one `EXPIRE` appended to the
ghost log); the (N+1)-th call inside the same bucket never completes — for
any same-bucket timestamp stream of length `mm` it sleeps `mm` times,
returns no completion (in particular no "no item" result), and arms no
further expiry — while with a stream that rolls over to a fresh bucket
`ts2` it completes with an item after its sleeps; and `limit = None` touches
no state and always permits. -/
theorem claim_C1 (name sess : String) (n ts ts2 m : Nat) (s0 : Store)
    (h1 : s0.strs (RedisWQ._limit_key (RedisWQ.init name sess) ts) = none)
    (h2 : s0.strs (RedisWQ._limit_key (RedisWQ.init name sess) ts2) = none)
    (h3 : RedisWQ._limit_key (RedisWQ.init name sess) ts ≠
        RedisWQ._limit_key (RedisWQ.init name sess) ts2)
    (h4 : n + 2 ≤ (s0.lists (RedisWQ.init name sess)._main_q_key).length) :
    (∀ r ∈ ((RedisWQ.init name sess).leaseRun (some (n + 1)) ts (n + 1) s0).1,
        ∃ item, r = some (some item))
    ∧ ((RedisWQ.init name sess).leaseRun (some (n + 1)) ts (n + 1) s0).2.expireLog =
        s0.expireLog ++
          [(RedisWQ._limit_key (RedisWQ.init name sess) ts, LIMIT_BUCKET_SECONDS)]
    ∧ (∀ mm,
        ((RedisWQ.init name sess).leaseLimited 5 true none (some (n + 1))
            (List.replicate mm ts)
            ((RedisWQ.init name sess).leaseRun (some (n + 1)) ts (n + 1) s0).2).1 = none
        ∧ ((RedisWQ.init name sess).leaseLimited 5 true none (some (n + 1))
            (List.replicate mm ts)
            ((RedisWQ.init name sess).leaseRun (some (n + 1)) ts (n + 1) s0).2).2.2 = mm
        ∧ ((RedisWQ.init name sess).leaseLimited 5 true none (some (n + 1))
            (List.replicate mm ts)
            ((RedisWQ.init name sess).leaseRun (some (n + 1)) ts (n + 1) s0).2).2.1.expireLog =
          ((RedisWQ.init name sess).leaseRun (some (n + 1)) ts (n + 1) s0).2.expireLog)
    ∧ (∃ item,
        ((RedisWQ.init name sess).leaseLimited 5 true none (some (n + 1))
            (List.replicate m ts ++ [ts2])
            ((RedisWQ.init name sess).leaseRun (some (n + 1)) ts (n + 1) s0).2).1 =
          some (some item))
    ∧ (∀ (t : Nat) (u : Store), (RedisWQ.init name sess)._limit_rate none t u = (true, u)) := by
  have hkl : ∀ hsh, RedisWQ._limit_key (RedisWQ.init name sess) ts ≠
      RedisWQ._lease_key_prefix (RedisWQ.init name sess) ++ hsh :=
    fun hsh => limit_key_ne_lease_key name sess ts hsh
  have hmp := main_ne_processing name sess
  obtain ⟨hRun1, hRun2, hRun3, hRun4, hRun5⟩ :=
    leaseRun_fresh (RedisWQ.init name sess) (n + 1) ts hkl hmp n s0 h1
      (by omega) (by omega)
  have hSts2 : ((RedisWQ.init name sess).leaseRun (some (n + 1)) ts (n + 1) s0).2.strs
      (RedisWQ._limit_key (RedisWQ.init name sess) ts2) = none := by
    rw [hRun3 (RedisWQ._limit_key (RedisWQ.init name sess) ts2) h3.symm
      (fun hsh => limit_key_ne_lease_key name sess ts2 hsh)]
    exact h2
  have hSpos : 0 < (((RedisWQ.init name sess).leaseRun (some (n + 1)) ts (n + 1) s0).2.lists
      (RedisWQ.init name sess)._main_q_key).length := by
    rw [hRun5]
    omega
  refine ⟨hRun1, hRun4, ?_, ?_, fun t u => rfl⟩
  · intro mm
    obtain ⟨hD1, hD2, hD3, _, _, _⟩ :=
      leaseLimited_denied (RedisWQ.init name sess) (n + 1) ts mm (1 + n)
        (some LIMIT_BUCKET_SECONDS)
        ((RedisWQ.init name sess).leaseRun (some (n + 1)) ts (n + 1) s0).2
        (by omega) (by omega) hRun2
    exact ⟨hD1, hD2, hD3⟩
  · obtain ⟨item, hro, _⟩ :=
      leaseLimited_rollover (RedisWQ.init name sess) (n + 1) ts ts2 h3.symm m (1 + n)
        (some LIMIT_BUCKET_SECONDS)
        ((RedisWQ.init name sess).leaseRun (some (n + 1)) ts (n + 1) s0).2
        (by omega) (by omega) (by omega) hRun2 hSts2 hSpos
    exact ⟨item, hro⟩

/-- Witness for C1 at a concrete input: limit 1, one immediate success, then
rollover from bucket 0 to bucket 1. -/
theorem claim_C1_witness :
    (listStore "q" [[1], [2]]).strs (RedisWQ._limit_key (RedisWQ.init "q" "s") 0) = none
    ∧ RedisWQ._limit_key (RedisWQ.init "q" "s") 0 ≠
        RedisWQ._limit_key (RedisWQ.init "q" "s") 1
    ∧ 0 + 2 ≤ ((listStore "q" [[1], [2]]).lists (RedisWQ.init "q" "s")._main_q_key).length
    ∧ ∃ item, ((RedisWQ.init "q" "s").leaseLimited 5 true none (some 1)
        (List.replicate 1 0 ++ [1])
        ((RedisWQ.init "q" "s").leaseRun (some 1) 0 1 (listStore "q" [[1], [2]])).2).1 =
        some (some item) := by
  have h := claim_C1 "q" "s" 0 0 1 1 (listStore "q" [[1], [2]]) rfl rfl
    (by decide) (by decide)
  exact ⟨rfl, by decide, by decide, h.2.2.2.1⟩
